import Mathlib

/-!
Verification of the in-memory fixed-window rate limiter
(`middleware.RateLimiter` with its operations `Allow`, the periodic
`cleanup` pass, and `RateLimitMiddleware`).

Timestamps and durations are modelled as integers (`Int`); the Go map
`map[string][]time.Time` is modelled as a function `String → Option (List Int)`.
`time.Now()` becomes an explicit `now : Int` argument, and one iteration of
the `cleanup` ticker loop becomes `cleanupPass` at an explicit time.
-/

namespace RateLimit

/-- State of `RateLimiter`: the `requests` map, the `limit` (Go `int`) and the
`window` (Go `time.Duration`, an integer number of nanoseconds). -/
structure RateLimiter where
  requests : String → Option (List Int)
  limit : Int
  window : Int

/-- Go constructor `NewRateLimiter(limit, window)`: empty map, given policy. -/
def NewRateLimiter (limit window : Int) : RateLimiter :=
  { requests := fun _ => none, limit := limit, window := window }

/-- One call of `Allow(key)` at time `now`.  Mirrors the source: fast path for
an unseen key stores `[now]` and returns `true`; otherwise the stored
timestamps are filtered by `now.Sub(t) < rl.window`, the count is compared
against the limit (`len(validTimes) >= rl.limit` denies, leaving the map
untouched), and on admission `now` is appended and stored back. -/
def RateLimiter.Allow (rl : RateLimiter) (key : String) (now : Int) :
    Bool × RateLimiter :=
  match rl.requests key with
  | none =>
      (true, { rl with requests := fun k => if k = key then some [now] else rl.requests k })
  | some times =>
      let validTimes := times.filter (fun t => now - t < rl.window)
      if rl.limit ≤ (validTimes.length : Int) then
        (false, rl)
      else
        (true, { rl with requests := fun k =>
          if k = key then some (validTimes ++ [now]) else rl.requests k })

/-- One pass of the `cleanup` loop body at time `now`: for every key in the
map, timestamps failing `now.Sub(t) < rl.window` are removed; a key whose
filtered slice is empty is deleted, otherwise the filtered slice is stored. -/
def RateLimiter.cleanupPass (rl : RateLimiter) (now : Int) : RateLimiter :=
  { rl with requests := fun k =>
      match rl.requests k with
      | none => none
      | some times =>
          let validTimes := times.filter (fun t => now - t < rl.window)
          if validTimes.isEmpty then none else some validTimes }

/-- Run a sequence of `Allow(key)` calls at the given times, collecting the
returned booleans and threading the limiter state. -/
def runAllow (rl : RateLimiter) (key : String) : List Int → List Bool × RateLimiter
  | [] => ([], rl)
  | t :: ts =>
      let r := rl.Allow key t
      let rest := runAllow r.2 key ts
      (r.1 :: rest.1, rest.2)

/-- Go constant `http.StatusTooManyRequests`. -/
def statusTooManyRequests : Nat := 429

/-- The `gin.H` error payload built by `RateLimitMiddleware`. -/
def rateLimitErrorBody : List (String × String) :=
  [("error", "Rate limit exceeded. Please try again later.")]

/-- Observable effects of a `gin.Context` as used by the middleware: the JSON
response written (status code and payload), whether `Abort` was called, and
whether the rest of the handler chain (`c.Next()`) ran. -/
structure GinContext where
  response : Option (Nat × List (String × String))
  aborted : Bool
  handlerRan : Bool

/-- A fresh context: nothing written, not aborted, handler not yet run. -/
def GinContext.fresh : GinContext :=
  { response := none, aborted := false, handlerRan := false }

/-- The closure returned by `RateLimitMiddleware(limiter)`, applied to one
request whose extracted client IP is `key` at time `now`: if `Allow` denies,
it writes the 429 JSON body and aborts without running the chain; otherwise
`c.Next()` runs the underlying handler. -/
def RateLimitMiddleware (rl : RateLimiter) (key : String) (now : Int)
    (c : GinContext) : GinContext × RateLimiter :=
  let r := rl.Allow key now
  if r.1 then
    ({ c with handlerRan := true }, r.2)
  else
    ({ c with response := some (statusTooManyRequests, rateLimitErrorBody),
              aborted := true }, r.2)

/-! Basic unfolding lemmas for `Allow`. -/

theorem Allow_of_none {rl : RateLimiter} {key : String} {now : Int}
    (h : rl.requests key = none) :
    rl.Allow key now =
      (true, { rl with requests := fun k => if k = key then some [now] else rl.requests k }) := by
  unfold RateLimiter.Allow
  split
  · rfl
  · rename_i times heq
    rw [h] at heq
    exact absurd heq (by simp)

theorem Allow_of_some_denied {rl : RateLimiter} {key : String} {now : Int}
    {times : List Int} (h : rl.requests key = some times)
    (hlim : rl.limit ≤ ((times.filter (fun t => now - t < rl.window)).length : Int)) :
    rl.Allow key now = (false, rl) := by
  unfold RateLimiter.Allow
  split
  · rename_i heq
    rw [h] at heq
    exact absurd heq (by simp)
  · rename_i ts heq
    rw [h] at heq
    injection heq with heq
    subst heq
    simp only
    rw [if_pos hlim]

theorem Allow_of_some_admitted {rl : RateLimiter} {key : String} {now : Int}
    {times : List Int} (h : rl.requests key = some times)
    (hlim : ¬ rl.limit ≤ ((times.filter (fun t => now - t < rl.window)).length : Int)) :
    rl.Allow key now =
      (true, { rl with requests := fun k =>
        if k = key then some (times.filter (fun t => now - t < rl.window) ++ [now])
        else rl.requests k }) := by
  unfold RateLimiter.Allow
  split
  · rename_i heq
    rw [h] at heq
    exact absurd heq (by simp)
  · rename_i ts heq
    rw [h] at heq
    injection heq with heq
    subst heq
    simp only
    rw [if_neg hlim]

/-- A sample limiter state used as concrete input by several witnesses:
`limit = 1`, `window = 5`, key `"a"` holding timestamps `[0, 6]`. -/
def sampleRL : RateLimiter :=
  { requests := fun k => if k = "a" then some [0, 6] else none,
    limit := 1, window := 5 }

/-- A sample limiter with `limit = 0` and key `"a"` holding one stale
timestamp; used by concrete counterexamples. -/
def sampleRL0 : RateLimiter :=
  { requests := fun k => if k = "a" then some [0] else none,
    limit := 0, window := 5 }

/-- Allow leaves the `limit` and `window` fields of the state unchanged. -/
theorem Allow_preserves_policy (rl : RateLimiter) (key : String) (now : Int) :
    (rl.Allow key now).2.limit = rl.limit ∧ (rl.Allow key now).2.window = rl.window := by
  cases h : rl.requests key with
  | none => rw [Allow_of_none h]; exact ⟨rfl, rfl⟩
  | some times =>
      by_cases hl : rl.limit ≤ ((times.filter (fun t => now - t < rl.window)).length : Int)
      · rw [Allow_of_some_denied h hl]; exact ⟨rfl, rfl⟩
      · rw [Allow_of_some_admitted h hl]; exact ⟨rfl, rfl⟩

/-- Allow never reads or writes the map entry of a different key. -/
theorem Allow_requests_of_ne (rl : RateLimiter) {key k' : String}
    (hne : k' ≠ key) (now : Int) :
    (rl.Allow key now).2.requests k' = rl.requests k' := by
  cases h : rl.requests key with
  | none => rw [Allow_of_none h]; simp [hne]
  | some times =>
      by_cases hl : rl.limit ≤ ((times.filter (fun t => now - t < rl.window)).length : Int)
      · rw [Allow_of_some_denied h hl]
      · rw [Allow_of_some_admitted h hl]; simp [hne]

/-- A whole sequence of Allow calls for one key leaves other keys' entries
and the policy fields unchanged. -/
theorem runAllow_frame (key k' : String) (hne : k' ≠ key) (ts : List Int) :
    ∀ rl : RateLimiter,
      (runAllow rl key ts).2.requests k' = rl.requests k' ∧
      (runAllow rl key ts).2.limit = rl.limit ∧
      (runAllow rl key ts).2.window = rl.window := by
  induction ts with
  | nil => intro rl; exact ⟨rfl, rfl, rfl⟩
  | cons t ts ih =>
      intro rl
      have h1 := Allow_requests_of_ne rl hne t
      have h2 := Allow_preserves_policy rl key t
      have h3 := ih (rl.Allow key t).2
      simp only [runAllow]
      exact ⟨h3.1.trans h1, h3.2.1.trans h2.1, h3.2.2.trans h2.2⟩

/-- The boolean Allow returns depends only on the key's own entry and the
policy fields. -/
theorem Allow_fst_congr {rl1 rl2 : RateLimiter} (key : String) (now : Int)
    (hreq : rl1.requests key = rl2.requests key)
    (hlim : rl1.limit = rl2.limit) (hwin : rl1.window = rl2.window) :
    (rl1.Allow key now).1 = (rl2.Allow key now).1 := by
  cases h : rl2.requests key with
  | none => rw [Allow_of_none (hreq.trans h), Allow_of_none h]
  | some times =>
      by_cases hl : rl2.limit ≤ ((times.filter (fun t => now - t < rl2.window)).length : Int)
      · rw [Allow_of_some_denied (hreq.trans h) (by rw [hlim, hwin]; exact hl),
          Allow_of_some_denied h hl]
      · rw [Allow_of_some_admitted (hreq.trans h) (by rw [hlim, hwin]; exact hl),
          Allow_of_some_admitted h hl]

/-- C4: a denied Allow call consumes no quota: when the returned boolean is
`false` the limiter state is exactly the state before the call, so every
subsequent sequence of calls — for this or any other key — behaves as if the
denied attempt had never happened. -/
theorem denied_call_not_recorded (rl : RateLimiter) (key : String) (now : Int)
    (h : (rl.Allow key now).1 = false) :
    (rl.Allow key now).2 = rl ∧
    ∀ (key' : String) (ts : List Int),
      runAllow (rl.Allow key now).2 key' ts = runAllow rl key' ts := by
  have hst : (rl.Allow key now).2 = rl := by
    cases hreq : rl.requests key with
    | none => rw [Allow_of_none hreq] at h; simp at h
    | some times =>
        by_cases hl : rl.limit ≤ ((times.filter (fun t => now - t < rl.window)).length : Int)
        · rw [Allow_of_some_denied hreq hl]
        · rw [Allow_of_some_admitted hreq hl] at h; simp at h
  exact ⟨hst, fun key' ts => by rw [hst]⟩

/-- Witness for C4: `sampleRL` denies key `"a"` at time 10 and the state is
left untouched. -/
theorem denied_call_not_recorded_witness :
    (sampleRL.Allow "a" 10).2 = sampleRL ∧
    ∀ (key' : String) (ts : List Int),
      runAllow (sampleRL.Allow "a" 10).2 key' ts = runAllow sampleRL key' ts :=
  denied_call_not_recorded sampleRL "a" 10 (by decide)

/-- C6: distinct keys are independent: any sequence of Allow calls for key
`A` leaves `B`'s map entry untouched and does not change the boolean a
subsequent `Allow(B)` returns. -/
theorem distinct_keys_independent (rl : RateLimiter) (A B : String) (hAB : A ≠ B)
    (ts : List Int) (now : Int) :
    (runAllow rl A ts).2.requests B = rl.requests B ∧
    ((runAllow rl A ts).2.Allow B now).1 = (rl.Allow B now).1 := by
  have hf := runAllow_frame A B (Ne.symm hAB) ts rl
  exact ⟨hf.1, Allow_fst_congr B now hf.1 hf.2.1 hf.2.2⟩

/-- Witness for C6: exhausting key `"a"` on a fresh `1`-per-`5` limiter does
not touch key `"b"`. -/
theorem distinct_keys_independent_witness :
    (runAllow (NewRateLimiter 1 5) "a" [0, 0]).2.requests "b" =
      (NewRateLimiter 1 5).requests "b" ∧
    ((runAllow (NewRateLimiter 1 5) "a" [0, 0]).2.Allow "b" 0).1 =
      ((NewRateLimiter 1 5).Allow "b" 0).1 :=
  distinct_keys_independent (NewRateLimiter 1 5) "a" "b" (by decide) [0, 0] 0

/-- C7: after one cleanup pass at time `now`, every key still present holds a
non-empty list of timestamps all strictly inside the window, and a key whose
pruned list became empty has been deleted from the map. -/
theorem cleanupPass_prunes_and_removes (rl : RateLimiter) (now : Int) :
    (∀ (k : String) (ts : List Int),
        (rl.cleanupPass now).requests k = some ts →
        ts ≠ [] ∧ ∀ t ∈ ts, now - t < rl.window) ∧
    (∀ (k : String) (ts : List Int),
        rl.requests k = some ts →
        ts.filter (fun t => now - t < rl.window) = [] →
        (rl.cleanupPass now).requests k = none) := by
  constructor
  · intro k ts hts
    unfold RateLimiter.cleanupPass at hts
    simp only at hts
    cases hreq : rl.requests k with
    | none => rw [hreq] at hts; exact absurd hts (by simp)
    | some times =>
        rw [hreq] at hts
        by_cases he : (times.filter (fun t => now - t < rl.window)).isEmpty
        · simp [he] at hts
        · simp [he] at hts
          subst hts
          refine ⟨by simpa [List.isEmpty_iff] using he, ?_⟩
          intro t ht
          exact of_decide_eq_true (List.mem_filter.mp ht).2
  · intro k ts hts hfil
    unfold RateLimiter.cleanupPass
    simp only
    rw [hts]
    simp [hfil]

/-- Witness for C7: on `sampleRL` a pass at time 10 keeps `"a"` with exactly
the in-window timestamp `[6]`, and a pass at time 20 deletes `"a"`. -/
theorem cleanupPass_prunes_and_removes_witness :
    (([6] : List Int) ≠ [] ∧ ∀ t ∈ ([6] : List Int), (10 : Int) - t < sampleRL.window) ∧
    (sampleRL.cleanupPass 20).requests "a" = none :=
  ⟨(cleanupPass_prunes_and_removes sampleRL 10).1 "a" [6] (by decide),
   (cleanupPass_prunes_and_removes sampleRL 20).2 "a" [0, 6] (by decide) (by decide)⟩

/-- C10: a key absent from the map takes the fast path: the call is admitted
unconditionally — whatever the configured limit, zero or negative included —
and exactly the one-element history `[now]` is stored for the key. -/
theorem fresh_key_fast_path (rl : RateLimiter) (key : String) (now : Int)
    (h : rl.requests key = none) :
    (rl.Allow key now).1 = true ∧
    (rl.Allow key now).2.requests key = some [now] := by
  rw [Allow_of_none h]
  simp

/-- Witness for C10 at a concrete input: a limiter built with `limit = 0`
still admits the first call for an unseen key and stores `[5]`. -/
theorem fresh_key_fast_path_witness :
    ((NewRateLimiter 0 1000).Allow "1.2.3.4" 5).1 = true ∧
    ((NewRateLimiter 0 1000).Allow "1.2.3.4" 5).2.requests "1.2.3.4" = some [5] :=
  fresh_key_fast_path (NewRateLimiter 0 1000) "1.2.3.4" 5 rfl

/-- Filtering by the window at a later time absorbs filtering at an earlier
time: once `tc ≤ now`, anything still inside the window at `now` was inside
it at `tc`. -/
theorem filter_later_absorb (w : Int) {tc now : Int} (htc : tc ≤ now)
    (l : List Int) :
    (l.filter (fun t => tc - t < w)).filter (fun t => now - t < w) =
      l.filter (fun t => now - t < w) := by
  rw [@List.filter_filter _ (fun t => now - t < w) (fun t => tc - t < w) l]
  apply List.filter_congr
  intro a _
  by_cases h : now - a < w
  · have h2 : tc - a < w := by omega
    simp [h, h2]
  · simp [h]

/-- A concrete limiter used by the C2 witness: `limit = 3`, `window = 10`,
key `"a"` holding `[0, 0, 0]`. -/
def rlC2 : RateLimiter :=
  { requests := fun k => if k = "a" then some [0, 0, 0] else none,
    limit := 3, window := 10 }

/-- C2: stored timestamps are discarded exactly when `now - t ≥ window`
(first conjunct: after an admitted call for an existing key, the new entry
holds exactly the old timestamps with `now - t < window` plus `now`), and
once the window has rolled past the earliest of a full quota of timestamps,
the next call for that key is admitted again (second conjunct). -/
theorem stale_iff_discarded (rl : RateLimiter) (key : String) (now : Int)
    (times : List Int) :
    (rl.requests key = some times → (rl.Allow key now).1 = true →
      ∃ l, (rl.Allow key now).2.requests key = some l ∧
        ∀ t : Int, t ∈ l ↔ ((t ∈ times ∧ now - t < rl.window) ∨ t = now)) ∧
    (rl.requests key = some times → (times.length : Int) = rl.limit →
      ∀ t0 ∈ times, (∀ t ∈ times, t0 ≤ t) → rl.window ≤ now - t0 →
      (rl.Allow key now).1 = true) := by
  constructor
  · intro hreq hres
    by_cases hl : rl.limit ≤ ((times.filter (fun t => now - t < rl.window)).length : Int)
    · rw [Allow_of_some_denied hreq hl] at hres
      simp at hres
    · refine ⟨times.filter (fun t => now - t < rl.window) ++ [now], ?_, ?_⟩
      · rw [Allow_of_some_admitted hreq hl]
        simp
      · intro t
        simp [List.mem_append, List.mem_filter]
  · intro hreq hlen t0 ht0 _ hwin
    have hflt : (times.filter (fun t => now - t < rl.window)).length < times.length :=
      List.length_filter_lt_length_iff_exists.mpr ⟨t0, ht0, by simp; omega⟩
    have hadm : ¬ rl.limit ≤ ((times.filter (fun t => now - t < rl.window)).length : Int) := by
      omega
    rw [Allow_of_some_admitted hreq hadm]

/-- Witness for C2 on `rlC2` at time 11: the fourth call is admitted again
(all three stored timestamps are stale) and the stored entry becomes their
in-window survivors plus the new timestamp. -/
theorem stale_iff_discarded_witness :
    (∃ l, (rlC2.Allow "a" 11).2.requests "a" = some l ∧
        ∀ t : Int, t ∈ l ↔
          ((t ∈ ([0, 0, 0] : List Int) ∧ (11 : Int) - t < rlC2.window) ∨ t = 11)) ∧
    (rlC2.Allow "a" 11).1 = true :=
  ⟨(stale_iff_discarded rlC2 "a" 11 [0, 0, 0]).1 (by decide) (by decide),
   (stale_iff_discarded rlC2 "a" 11 [0, 0, 0]).2 (by decide) (by decide) 0 (by decide)
     (by decide) (by decide)⟩

/-- Counterexample to C3: `sampleRL` (limit 1, window 5, key `"a"` holding
`[0, 6]`) denies `Allow("a")` at time 10 and leaves the entry `[0, 6]`
stored unchanged, although timestamp `0` lies strictly below
`now - window = 5` — after a denied call the stored sequence is NOT pruned
of stale entries. -/
theorem denied_call_keeps_stale_entry :
    (sampleRL.Allow "a" 10).1 = false ∧
    (sampleRL.Allow "a" 10).2.requests "a" = some [0, 6] ∧
    (0 : Int) < 10 - sampleRL.window := by decide

/-- C3 amended: after an `Allow` call that returns `true`, every timestamp
stored for the key lies within `[now - window, now]` (given a nonnegative
window and previously stored timestamps not in the future); a denied call
leaves the whole state — in particular the key's unpruned entry — exactly
as it was, merely with no new timestamp appended. -/
theorem allow_entry_within_window (rl : RateLimiter) (key : String) (now : Int)
    (hwin : 0 ≤ rl.window)
    (hpast : ∀ t ∈ (rl.requests key).getD [], t ≤ now) :
    ((rl.Allow key now).1 = true →
      ∀ l, (rl.Allow key now).2.requests key = some l →
        ∀ t ∈ l, now - rl.window ≤ t ∧ t ≤ now) ∧
    ((rl.Allow key now).1 = false → (rl.Allow key now).2 = rl) := by
  cases hreq : rl.requests key with
  | none =>
      constructor
      · intro _ l hl t ht
        rw [Allow_of_none hreq] at hl
        simp at hl
        subst hl
        simp at ht
        subst ht
        omega
      · intro hfalse
        rw [Allow_of_none hreq] at hfalse
        simp at hfalse
  | some times =>
      rw [hreq] at hpast
      simp only [Option.getD_some] at hpast
      by_cases hl : rl.limit ≤ ((times.filter (fun t => now - t < rl.window)).length : Int)
      · constructor
        · intro htrue
          rw [Allow_of_some_denied hreq hl] at htrue
          simp at htrue
        · intro _
          rw [Allow_of_some_denied hreq hl]
      · constructor
        · intro _ l hlentry t ht
          rw [Allow_of_some_admitted hreq hl] at hlentry
          simp at hlentry
          subst hlentry
          rcases List.mem_append.mp ht with hf | hn
          · have h1 := List.mem_filter.mp hf
            have h2 : now - t < rl.window := of_decide_eq_true h1.2
            have h3 := hpast t h1.1
            omega
          · simp at hn
            subst hn
            omega
        · intro hfalse
          rw [Allow_of_some_admitted hreq hl] at hfalse
          simp at hfalse

/-- Witness for the amended C3 on `sampleRL` at time 10: the call is denied,
so the second conjunct applies and the state is exactly unchanged. -/
theorem allow_entry_within_window_witness :
    (((sampleRL.Allow "a" 10).1 = true →
      ∀ l, (sampleRL.Allow "a" 10).2.requests "a" = some l →
        ∀ t ∈ l, (10 : Int) - sampleRL.window ≤ t ∧ t ≤ 10) ∧
    ((sampleRL.Allow "a" 10).1 = false → (sampleRL.Allow "a" 10).2 = sampleRL)) :=
  allow_entry_within_window sampleRL "a" 10 (by decide) (by decide)

/-- Counterexample to C5: with `limit = 0` (`sampleRL0`: key `"a"` holding
the stale timestamp `0`, window 5) a cleanup pass at time 10 removes the
key, after which `Allow("a")` at time 10 takes the fast path and returns
`true`, while without the pass the same call returns `false` — the pass
changed an observable decision. -/
theorem cleanup_changes_decision_zero_limit :
    ((sampleRL0.cleanupPass 10).Allow "a" 10).1 = true ∧
    (sampleRL0.Allow "a" 10).1 = false := by decide

/-- C5 amended: provided the limiter's `limit` is at least 1, one cleanup
pass at any time `tc ≤ now` never changes the boolean a subsequent
`Allow(key)` at time `now` returns. -/
theorem cleanup_noop_for_allow (rl : RateLimiter) (key : String) (tc now : Int)
    (hlim : 1 ≤ rl.limit) (htc : tc ≤ now) :
    ((rl.cleanupPass tc).Allow key now).1 = (rl.Allow key now).1 := by
  cases hreq : rl.requests key with
  | none =>
      have hcl : (rl.cleanupPass tc).requests key = none := by
        unfold RateLimiter.cleanupPass
        simp only
        rw [hreq]
      rw [Allow_of_none hcl, Allow_of_none hreq]
  | some times =>
      have hcl : (rl.cleanupPass tc).requests key =
          (if (times.filter (fun t => tc - t < rl.window)).isEmpty then none
           else some (times.filter (fun t => tc - t < rl.window))) := by
        unfold RateLimiter.cleanupPass
        simp only
        rw [hreq]
      by_cases he : (times.filter (fun t => tc - t < rl.window)).isEmpty
      · rw [if_pos he] at hcl
        have hfe : times.filter (fun t => now - t < rl.window) = [] := by
          rw [← filter_later_absorb rl.window htc times, List.isEmpty_iff.mp he]
          rfl
        have hadm : ¬ rl.limit ≤ ((times.filter (fun t => now - t < rl.window)).length : Int) := by
          rw [hfe]
          simp
          omega
        rw [Allow_of_none hcl, Allow_of_some_admitted hreq hadm]
      · rw [if_neg he] at hcl
        by_cases hl : rl.limit ≤ ((times.filter (fun t => now - t < rl.window)).length : Int)
        · have hd : (rl.cleanupPass tc).limit ≤
              (((times.filter (fun t => tc - t < rl.window)).filter
                (fun t => now - t < (rl.cleanupPass tc).window)).length : Int) := by
            show rl.limit ≤ (((times.filter (fun t => tc - t < rl.window)).filter
                (fun t => now - t < rl.window)).length : Int)
            rw [filter_later_absorb rl.window htc times]
            exact hl
          rw [Allow_of_some_denied hcl hd, Allow_of_some_denied hreq hl]
        · have ha : ¬ (rl.cleanupPass tc).limit ≤
              (((times.filter (fun t => tc - t < rl.window)).filter
                (fun t => now - t < (rl.cleanupPass tc).window)).length : Int) := by
            show ¬ rl.limit ≤ (((times.filter (fun t => tc - t < rl.window)).filter
                (fun t => now - t < rl.window)).length : Int)
            rw [filter_later_absorb rl.window htc times]
            exact hl
          rw [Allow_of_some_admitted hcl ha, Allow_of_some_admitted hreq hl]

/-- Witness for the amended C5 on `sampleRL`: a pass at time 9 does not
change the (denied) decision of `Allow("a")` at time 10. -/
theorem cleanup_noop_for_allow_witness :
    ((sampleRL.cleanupPass 9).Allow "a" 10).1 = (sampleRL.Allow "a" 10).1 :=
  cleanup_noop_for_allow sampleRL "a" 9 10 (by decide) (by decide)

/-- C8: when `Allow` denies a request, the middleware responds with status
429 (`http.StatusTooManyRequests`) and exactly the payload
`{"error": "Rate limit exceeded. Please try again later."}`, aborts the
chain, and the underlying handler never runs; when `Allow` admits, the
request proceeds to the handler. -/
theorem middleware_throttles_on_deny (rl : RateLimiter) (key : String) (now : Int)
    (c : GinContext) (hc : c.handlerRan = false) :
    ((rl.Allow key now).1 = false →
      (RateLimitMiddleware rl key now c).1.response =
        some (statusTooManyRequests, rateLimitErrorBody) ∧
      statusTooManyRequests = 429 ∧
      rateLimitErrorBody = [("error", "Rate limit exceeded. Please try again later.")] ∧
      (RateLimitMiddleware rl key now c).1.aborted = true ∧
      (RateLimitMiddleware rl key now c).1.handlerRan = false) ∧
    ((rl.Allow key now).1 = true →
      (RateLimitMiddleware rl key now c).1.handlerRan = true) := by
  constructor
  · intro h
    refine ⟨?_, rfl, rfl, ?_, ?_⟩ <;> simp [RateLimitMiddleware, h, hc]
  · intro h
    simp [RateLimitMiddleware, h]

/-- Witness for C8 on `sampleRL` (which denies `"a"` at time 10) with a
fresh context. -/
theorem middleware_throttles_on_deny_witness :
    ((sampleRL.Allow "a" 10).1 = false →
      (RateLimitMiddleware sampleRL "a" 10 GinContext.fresh).1.response =
        some (statusTooManyRequests, rateLimitErrorBody) ∧
      statusTooManyRequests = 429 ∧
      rateLimitErrorBody = [("error", "Rate limit exceeded. Please try again later.")] ∧
      (RateLimitMiddleware sampleRL "a" 10 GinContext.fresh).1.aborted = true ∧
      (RateLimitMiddleware sampleRL "a" 10 GinContext.fresh).1.handlerRan = false) ∧
    ((sampleRL.Allow "a" 10).1 = true →
      (RateLimitMiddleware sampleRL "a" 10 GinContext.fresh).1.handlerRan = true) :=
  middleware_throttles_on_deny sampleRL "a" 10 GinContext.fresh rfl

/-- When the key's stored history plus the pending calls all lie within one
window span and fit under the limit, every pending call is admitted and the
history becomes the old entries followed by the call times. -/
theorem runAllow_admits_within_span (key : String) :
    ∀ (ts acc : List Int) (rl : RateLimiter),
      rl.requests key = some acc →
      (∀ a, (a ∈ acc ∨ a ∈ ts) → ∀ b, (b ∈ acc ∨ b ∈ ts) → b - a < rl.window) →
      ((acc.length : Int) + (ts.length : Int) ≤ rl.limit) →
      (runAllow rl key ts).1 = List.replicate ts.length true ∧
      (runAllow rl key ts).2.requests key = some (acc ++ ts) ∧
      (runAllow rl key ts).2.limit = rl.limit ∧
      (runAllow rl key ts).2.window = rl.window := by
  intro ts
  induction ts with
  | nil =>
      intro acc rl hreq hspan hlen
      refine ⟨rfl, ?_, rfl, rfl⟩
      simpa using hreq
  | cons t ts ih =>
      intro acc rl hreq hspan hlen
      have hval : acc.filter (fun a => t - a < rl.window) = acc := by
        apply List.filter_eq_self.mpr
        intro a ha
        exact decide_eq_true (hspan a (Or.inl ha) t (Or.inr (by simp)))
      have hlt : ¬ rl.limit ≤ ((acc.filter (fun a => t - a < rl.window)).length : Int) := by
        rw [hval]
        simp at hlen
        omega
      have hstep := Allow_of_some_admitted hreq hlt
      have hreq2 : (rl.Allow key t).2.requests key = some (acc ++ [t]) := by
        rw [hstep, hval]
        simp
      have hpol := Allow_preserves_policy rl key t
      have hspan2 : ∀ a, (a ∈ acc ++ [t] ∨ a ∈ ts) → ∀ b, (b ∈ acc ++ [t] ∨ b ∈ ts) →
          b - a < (rl.Allow key t).2.window := by
        intro a ha b hb
        rw [hpol.2]
        have hmem : ∀ x : Int, (x ∈ acc ++ [t] ∨ x ∈ ts) → (x ∈ acc ∨ x ∈ t :: ts) := by
          intro x hx
          rcases hx with hx | hx
          · rcases List.mem_append.mp hx with hx | hx
            · exact Or.inl hx
            · simp at hx
              subst hx
              exact Or.inr (by simp)
          · exact Or.inr (by simp [hx])
        exact hspan a (hmem a ha) b (hmem b hb)
      have hlen2 : (((acc ++ [t]).length : Int) + (ts.length : Int) ≤ (rl.Allow key t).2.limit) := by
        rw [hpol.1]
        simp at hlen ⊢
        omega
      have ihr := ih (acc ++ [t]) (rl.Allow key t).2 hreq2 hspan2 hlen2
      refine ⟨?_, ?_, ?_, ?_⟩
      · simp only [runAllow]
        rw [ihr.1, hstep]
        simp [List.replicate_succ]
      · simp only [runAllow]
        rw [ihr.2.1]
        simp
      · simp only [runAllow]
        rw [ihr.2.2.1, hpol.1]
      · simp only [runAllow]
        rw [ihr.2.2.2, hpol.2]

/-- Splitting a call sequence: the results of running `xs ++ ys` are the
results of `xs` followed by the results of `ys` run from the state `xs`
left behind. -/
theorem runAllow_append (key : String) :
    ∀ (xs ys : List Int) (rl : RateLimiter),
      runAllow rl key (xs ++ ys) =
        ((runAllow rl key xs).1 ++ (runAllow (runAllow rl key xs).2 key ys).1,
         (runAllow (runAllow rl key xs).2 key ys).2) := by
  intro xs
  induction xs with
  | nil => intro ys rl; simp [runAllow]
  | cons x xs ih =>
      intro ys rl
      simp only [List.cons_append, runAllow, List.append_eq]
      rw [ih ys (rl.Allow key x).2]

/-- Starting from an unseen key, a nonempty burst of calls lying pairwise
within one window span and fitting under the limit is admitted in full, and
the stored history becomes exactly the call times. -/
theorem runAllow_fresh_within_span (key : String) (t : Int) (ts : List Int)
    (rl : RateLimiter) (hreq : rl.requests key = none)
    (hspan : ∀ a ∈ t :: ts, ∀ b ∈ t :: ts, b - a < rl.window)
    (hlen : ((t :: ts).length : Int) ≤ rl.limit) :
    (runAllow rl key (t :: ts)).1 = List.replicate (t :: ts).length true ∧
    (runAllow rl key (t :: ts)).2.requests key = some (t :: ts) ∧
    (runAllow rl key (t :: ts)).2.limit = rl.limit ∧
    (runAllow rl key (t :: ts)).2.window = rl.window := by
  have hA : rl.Allow key t =
      (true, { rl with requests := fun k => if k = key then some [t] else rl.requests k }) :=
    Allow_of_none hreq
  have hpol := Allow_preserves_policy rl key t
  have hreq1 : (rl.Allow key t).2.requests key = some [t] := by
    rw [hA]
    simp
  have hspan1 : ∀ a, (a ∈ ([t] : List Int) ∨ a ∈ ts) →
      ∀ b, (b ∈ ([t] : List Int) ∨ b ∈ ts) → b - a < (rl.Allow key t).2.window := by
    intro a ha b hb
    rw [hpol.2]
    have hmem : ∀ x : Int, (x ∈ ([t] : List Int) ∨ x ∈ ts) → x ∈ t :: ts := by
      intro x hx
      rcases hx with hx | hx
      · simp at hx
        simp [hx]
      · simp [hx]
    exact hspan a (hmem a ha) b (hmem b hb)
  have hlen1 : ((([t] : List Int).length : Int) + (ts.length : Int) ≤ (rl.Allow key t).2.limit) := by
    rw [hpol.1]
    simp at hlen ⊢
    omega
  have hrest := runAllow_admits_within_span key ts [t] (rl.Allow key t).2 hreq1 hspan1 hlen1
  refine ⟨?_, ?_, ?_, ?_⟩
  · simp only [runAllow]
    rw [hrest.1, hA]
    simp [List.replicate_succ]
  · simp only [runAllow]
    rw [hrest.2.1]
    simp
  · simp only [runAllow]
    rw [hrest.2.2.1, hpol.1]
  · simp only [runAllow]
    rw [hrest.2.2.2, hpol.2]

/-- C1: on a fresh limiter with `limit = L ≥ 1` and `window = W > 0`, for
any `L + 1` successive call times lying pairwise within a span below `W`,
the first `L` calls are admitted and the `(L + 1)`-th call is denied. -/
theorem first_calls_admitted_then_denied (L : Nat) (W : Int) (key : String)
    (hL : 1 ≤ L) (_hW : 0 < W) (ts : List Int)
    (hlen : ts.length = L + 1)
    (hspan : ∀ a ∈ ts, ∀ b ∈ ts, b - a < W) :
    (runAllow (NewRateLimiter (L : Int) W) key ts).1 =
      List.replicate L true ++ [false] := by
  cases ts with
  | nil => simp at hlen
  | cons t rest =>
      rcases List.eq_nil_or_concat rest with hrest | ⟨mid, lastT, hrest⟩
      · subst hrest
        simp at hlen
        omega
      · rw [List.concat_eq_append] at hrest
        subst hrest
        have hmidlen : mid.length + 1 = L := by
          simp at hlen
          omega
        have hsub : ∀ x : Int, x ∈ t :: mid → x ∈ t :: (mid ++ [lastT]) := by
          intro x hx
          rcases List.mem_cons.mp hx with hx | hx
          · simp [hx]
          · simp [hx]
        have hspanF : ∀ a ∈ t :: mid, ∀ b ∈ t :: mid,
            b - a < (NewRateLimiter (L : Int) W).window := by
          intro a ha b hb
          exact hspan a (hsub a ha) b (hsub b hb)
        have hlenF : (((t :: mid).length : Int) ≤ (NewRateLimiter (L : Int) W).limit) := by
          show ((t :: mid).length : Int) ≤ (L : Int)
          simp
          omega
        have hfirst := runAllow_fresh_within_span key t mid
          (NewRateLimiter (L : Int) W) rfl hspanF hlenF
        have hts : (t :: (mid ++ [lastT])) = (t :: mid) ++ [lastT] := by simp
        rw [hts, runAllow_append key (t :: mid) [lastT] (NewRateLimiter (L : Int) W)]
        have hfull : (t :: mid).filter
            (fun a => lastT - a <
              (runAllow (NewRateLimiter (L : Int) W) key (t :: mid)).2.window) =
            t :: mid := by
          apply List.filter_eq_self.mpr
          intro a ha
          rw [hfirst.2.2.2]
          exact decide_eq_true (hspan a (hsub a ha) lastT (by simp))
        have hden : (runAllow (NewRateLimiter (L : Int) W) key (t :: mid)).2.limit ≤
            (((t :: mid).filter
              (fun a => lastT - a <
                (runAllow (NewRateLimiter (L : Int) W) key (t :: mid)).2.window)).length : Int) := by
          rw [hfull, hfirst.2.2.1]
          show (L : Int) ≤ (((t :: mid).length : Int))
          simp
          omega
        have hlast := Allow_of_some_denied hfirst.2.1 hden
        have hsingle : ∀ st : RateLimiter,
            (runAllow st key [lastT]).1 = [(st.Allow key lastT).1] := by
          intro st
          simp [runAllow]
        dsimp only
        rw [hsingle, hlast, hfirst.1]
        simp [hmidlen]

/-- Witness for C1: a fresh limiter with limit 2 and window 10 admits the
calls at times 0 and 1 and denies the third call at time 2. -/
theorem first_calls_admitted_then_denied_witness :
    (runAllow (NewRateLimiter 2 10) "a" [0, 1, 2]).1 =
      List.replicate 2 true ++ [false] :=
  first_calls_admitted_then_denied 2 10 "a" (by decide) (by decide) [0, 1, 2]
    (by decide) (by decide)

end RateLimit
